import Mathlib

/-!
Shallow embedding of `lib/evmone/FixedHash.h`, the fixed-size byte
container `FixedHash<N>` together with its big-endian codec helpers and
the bloom-filter part extraction.  A `FixedHash<N>` value is modelled as
a `List Nat` of length `N`; the invariant that every entry is a byte
(`< 256`) appears as a hypothesis of the theorems that need it.
-/

namespace FixedHash

/-- A list models the contents of a `FixedHash` when every entry fits in
one byte. -/
def validBytes (l : List Nat) : Prop := ∀ b ∈ l, b < 256

instance validBytes_dec (l : List Nat) : Decidable (validBytes l) :=
  List.decidableBAll _ l

/-- Big-endian numeric value of a byte list: index 0 is the most
significant byte.  This is the unbounded decoding used to state numeric
properties of the byte-wise operations. -/
def beVal : List Nat → Nat
  | [] => 0
  | b :: r => b * 2 ^ (8 * r.length) + beVal r

/-- Source function `toBigEndian`: the loop writes `_val & 0xff` into the
last byte and recurses on `_val >> 8` for the bytes before it. -/
def toBigEndian (v : Nat) : Nat → List Nat
  | 0 => []
  | n + 1 => toBigEndian (v >>> 8) n ++ [v &&& 0xff]

/-- Source function `fromBigEndian` instantiated at the `Arith` type of
`FixedHash<N>` (a boost fixed-width unsigned integer of `N * 8` bits,
`unchecked`, so every intermediate is reduced modulo `2 ^ (8 * n)`):
folds `ret = (ret << 8) | byte` over the bytes. -/
def fromBigEndian (n : Nat) (l : List Nat) : Nat :=
  l.foldl (fun ret b => ((ret <<< 8) % 2 ^ (8 * n)) ||| b) 0

/-- Carry-chain form of `FixedHash::operator++`: the loop
`for (unsigned i = size; i > 0 && !++m_data[--i]; )` increments the last
byte and ripples the carry toward index 0 while the incremented byte
wrapped to zero.  The Bool is the carry out of byte 0. -/
def incBE : List Nat → List Nat × Bool
  | [] => ([], true)
  | b :: r =>
    match incBE r with
    | (r', true) => ((b + 1) % 256 :: r', (b + 1) % 256 == 0)
    | (r', false) => (b :: r', false)

/-- Source `operator++` (the returned value; the final carry is
discarded, so overflow wraps silently). -/
def inc (l : List Nat) : List Nat := (incBE l).1

/-- Source `operator<`: scan from byte 0; the first strictly smaller
byte returns true, the first strictly greater byte returns false, equal
prefixes fall through to false. -/
def fhLt : List Nat → List Nat → Bool
  | a :: as, b :: bs => if a < b then true else if b < a then false else fhLt as bs
  | _, _ => false

/-- Source `operator==`: the two byte arrays are equal. -/
def fhEq (a b : List Nat) : Bool := a == b

/-- Source `operator>=`, defined as `!(*this < other)`. -/
def fhGe (a b : List Nat) : Bool := !fhLt a b

/-- Source `operator<=`, defined as `*this == other || *this < other`. -/
def fhLe (a b : List Nat) : Bool := fhEq a b || fhLt a b

/-- Source `operator>`, defined as `!(*this <= other)`. -/
def fhGt (a b : List Nat) : Bool := !fhLe a b

/-- Alignment policy of the `FixedHash` constructors. -/
inductive ConstructFromHashType where
  | AlignLeft
  | AlignRight
  | FailIfDifferent
deriving DecidableEq

export ConstructFromHashType (AlignLeft AlignRight FailIfDifferent)

/-- Copy loop shared by the `FixedHash` constructors: starting from a
zero-filled destination of `n` bytes, copy `c` bytes of `src`, matching
indices from the starts (`alignRight = false`) or from the ends
(`alignRight = true`): iteration `i` does
`m_data[ar ? n-1-i : i] = src[ar ? src.len-1-i : i]`. -/
def copyAligned (n : Nat) (src : List Nat) (ar : Bool) (c : Nat) : List Nat :=
  (List.range c).foldl
    (fun d i =>
      d.set (cond ar (n - 1 - i) i) (src.getD (cond ar (src.length - 1 - i) i) 0))
    (List.replicate n 0)

/-- Source constructor `FixedHash(bytes const&, ConstructFromHashType)`:
an exact-length source is copied verbatim; otherwise `FailIfDifferent`
keeps the zero fill and the align policies copy `min(size, N)` bytes via
the aligned copy loop. -/
def fromBytes (n : Nat) (b : List Nat) (t : ConstructFromHashType) : List Nat :=
  if b.length = n then b
  else if t = FailIfDifferent then List.replicate n 0
  else copyAligned n b (decide (t = AlignRight)) (min b.length n)

/-- Source cross-size constructor `FixedHash<N>(FixedHash<M> const&, t)`:
zero-fill, then copy `min(M, N)` bytes with the aligned copy loop (on
this path `FailIfDifferent` selects the same indices as `AlignLeft`). -/
def fromOther (n : Nat) (h : List Nat) (t : ConstructFromHashType) : List Nat :=
  copyAligned n h (decide (t = AlignRight)) (min h.length n)

/-- Source function `right160`: `memcpy(ret.data(), _t.data() + 12, 20)`,
so byte `j` of the result is byte `12 + j` of the input. -/
def right160 (h : List Nat) : List Nat :=
  (List.range 20).map fun j => h.getD (12 + j) 0

/-- Little-endian multi-byte load: models reading consecutive bytes as
one machine word (`uint64_t`) on a little-endian target. -/
def leLoad : List Nat → Nat
  | [] => 0
  | b :: r => b + 256 * leLoad r

/-- Word `w` of the four `uint64_t` values overlaying the 32 bytes in
the specialised `FixedHash<32>::operator==`. -/
def word64 (l : List Nat) (w : Nat) : Nat := leLoad ((l.drop (8 * w)).take 8)

/-- Specialised `FixedHash<32>::operator==`: compare the four 8-byte
machine words. -/
def fastEq32 (a b : List Nat) : Bool :=
  decide (word64 a 0 = word64 b 0) && decide (word64 a 1 = word64 b 1) &&
    decide (word64 a 2 = word64 b 2) && decide (word64 a 3 = word64 b 3)

/-- Inner loop of `firstBitSet` on one byte `d`:
`for (;; ++ret, d <<= 1) if (d & 0x80) return ret;` — count shifts until
the top bit is set; `d` has byte type so the shift truncates mod 256.
The first argument is fuel; 8 steps suffice for a nonzero byte. -/
def clz8 : Nat → Nat → Nat
  | 0, _ => 0
  | k + 1, d => if d &&& 0x80 ≠ 0 then 0 else 1 + clz8 k ((d <<< 1) % 256)

/-- Source `firstBitSet`: scan bytes most significant first, a zero byte
adds 8, and the first nonzero byte returns the accumulated count plus
its leading-zero count. -/
def firstBitSet : List Nat → Nat
  | [] => 0
  | d :: r => if d ≠ 0 then clz8 8 d else 8 + firstBitSet r

/-- Bit `j` of the value in the most-significant-first ordering used by
`firstBitSet`: bit 0 is the top bit of byte 0, bit `8 * len - 1` the
bottom bit of the last byte. -/
def bitAt (l : List Nat) (j : Nat) : Bool :=
  (l.getD (j / 8) 0).testBit (7 - j % 8)

/-- Source template `StaticLog2`: `StaticLog2<1>::result = 0` and
`StaticLog2<N>::result = 1 + StaticLog2<N/2>::result` (the template
recursion does not terminate at 0; the value there is arbitrary). -/
def StaticLog2 : Nat → Nat
  | 0 => 0
  | 1 => 0
  | n + 2 => 1 + StaticLog2 ((n + 2) / 2)

/-- Value `c_bloomBytes` of `bloomPart<P, M>`:
`(StaticLog2<M * 8>::result + 7) / 8` bytes feed each pick. -/
def bloomBytes (m : Nat) : Nat := (StaticLog2 (m * 8) + 7) / 8

/-- Raw index word of pick `i` in `bloomPart`: the inner loop
`index = (index << 8) | *p` over the `c_bloomBytes` bytes starting at
offset `i * c_bloomBytes` of the source (the pointer `p` advances
sequentially across picks). -/
def pickRaw (bpp : Nat) (src : List Nat) (i : Nat) : Nat :=
  (List.range bpp).foldl (fun idx j => (idx <<< 8) ||| src.getD (i * bpp + j) 0) 0

/-- Body of the pick loop of `bloomPart`: mask the raw index word and
set bit `index % 8` of byte `M - 1 - index / 8` of the accumulator. -/
def bloomStep (m mask bpp : Nat) (src : List Nat) (ret : List Nat) (i : Nat) : List Nat :=
  ret.set (m - 1 - (pickRaw bpp src i &&& mask) / 8)
    (ret.getD (m - 1 - (pickRaw bpp src i &&& mask) / 8) 0 |||
      (1 <<< ((pickRaw bpp src i &&& mask) % 8)))

/-- Source `bloomPart<P, M>`: with `c_bloomBits = M * 8` and
`c_mask = c_bloomBits - 1`, run the pick loop `P` times over a
zero-initialised `M`-byte result. -/
def bloomPart (p m : Nat) (src : List Nat) : List Nat :=
  (List.range p).foldl (bloomStep m (m * 8 - 1) (bloomBytes m) src) (List.replicate m 0)

/-- Masked index of pick `i`, written as the specification reads: the
next `bytesPerPick` source bytes as a big-endian integer, reduced into
`[0, M * 8)`. -/
def bloomPick (m : Nat) (src : List Nat) (i : Nat) : Nat :=
  beVal ((src.drop (i * bloomBytes m)).take (bloomBytes m)) % (m * 8)

/-- Source `operator|`: byte-wise or of equal-sized hashes. -/
def orBytes (a b : List Nat) : List Nat := List.zipWith (· ||| ·) a b

/-- Source `operator&`: byte-wise and of equal-sized hashes. -/
def andBytes (a b : List Nat) : List Nat := List.zipWith (· &&& ·) a b

/-- Source `contains`: `(*this & _c) == _c`. -/
def fhContains (a c : List Nat) : Bool := andBytes a c == c

/-- Source `shiftBloom<P>(h)`: `*this |= h.bloomPart<P, N>()` where `N`
is the size of `*this`. -/
def shiftBloom (p : Nat) (self other : List Nat) : List Nat :=
  orBytes self (bloomPart p self.length other)

/-- Source `containsBloom<P>(h)`: `contains(h.bloomPart<P, N>())`. -/
def containsBloom (p : Nat) (self other : List Nat) : Bool :=
  fhContains self (bloomPart p self.length other)

/-- Number of set bits of the value: flat bit positions `j` with
`j / 8 < length` where bit `j % 8` of byte `j / 8` is set. -/
def setBitCount (l : List Nat) : Nat :=
  ((Finset.range (8 * l.length)).filter fun j => (l.getD (j / 8) 0).testBit (j % 8)).card

/-! Helper lemmas about indexing, `beVal` and bit arithmetic. -/

theorem getD_replicate {n k : Nat} : (List.replicate n (0 : Nat)).getD k 0 = 0 := by
  rw [List.getD_eq_getElem?_getD, List.getElem?_replicate]
  split <;> rfl

theorem getD_set_self {l : List Nat} {k v : Nat} (h : k < l.length) :
    (l.set k v).getD k 0 = v := by
  rw [List.getD_eq_getElem?_getD, List.getElem?_set_self h]
  rfl

theorem getD_set_ne {l : List Nat} {j k : Nat} (v : Nat) (h : j ≠ k) :
    (l.set j v).getD k 0 = l.getD k 0 := by
  rw [List.getD_eq_getElem?_getD, List.getElem?_set_ne h, ← List.getD_eq_getElem?_getD]

theorem two_pow_mul_succ (k : Nat) : 2 ^ (8 * (k + 1)) = 256 * 2 ^ (8 * k) := by
  rw [show 8 * (k + 1) = 8 + 8 * k by ring, pow_add]
  norm_num

theorem validBytes_cons {b : Nat} {r : List Nat} (h : validBytes (b :: r)) :
    b < 256 ∧ validBytes r :=
  ⟨h b (List.mem_cons_self _ _), fun x hx => h x (List.mem_cons_of_mem _ hx)⟩

theorem beVal_lt {l : List Nat} (h : validBytes l) : beVal l < 2 ^ (8 * l.length) := by
  induction l with
  | nil => simp [beVal]
  | cons b r ih =>
    obtain ⟨hb, hr⟩ := validBytes_cons h
    have hrv := ih hr
    have hstep : (b + 1) * 2 ^ (8 * r.length) ≤ 256 * 2 ^ (8 * r.length) :=
      Nat.mul_le_mul_right _ (by omega)
    calc beVal (b :: r) = b * 2 ^ (8 * r.length) + beVal r := rfl
      _ < (b + 1) * 2 ^ (8 * r.length) := by
          have hexp : (b + 1) * 2 ^ (8 * r.length) =
              b * 2 ^ (8 * r.length) + 2 ^ (8 * r.length) := by ring
          rw [hexp]
          exact Nat.add_lt_add_left hrv _
      _ ≤ 256 * 2 ^ (8 * r.length) := hstep
      _ = 2 ^ (8 * (b :: r).length) := by rw [List.length_cons, two_pow_mul_succ]

theorem beVal_replicate_zero (n : Nat) : beVal (List.replicate n 0) = 0 := by
  induction n with
  | zero => rfl
  | succ k ih => simp [List.replicate_succ, beVal, ih]

theorem beVal_inj {a : List Nat} : ∀ {b : List Nat}, a.length = b.length →
    validBytes a → validBytes b → beVal a = beVal b → a = b := by
  induction a with
  | nil => intro b hlen _ _ _; cases b with
    | nil => rfl
    | cons y ys => simp at hlen
  | cons x xs ih =>
    intro b hlen ha hb heq
    cases b with
    | nil => simp at hlen
    | cons y ys =>
      obtain ⟨hx, hxs⟩ := validBytes_cons ha
      obtain ⟨hy, hys⟩ := validBytes_cons hb
      have hlen' : xs.length = ys.length := by simpa using hlen
      have hxlt := beVal_lt hxs
      have hylt := beVal_lt hys
      rw [beVal, beVal, hlen'] at heq
      have hxy : x = y := by
        have h1 := congrArg (fun t => t / 2 ^ (8 * ys.length)) heq
        simp only at h1
        rw [Nat.mul_comm x, Nat.mul_comm y, Nat.mul_add_div (Nat.two_pow_pos _),
          Nat.mul_add_div (Nat.two_pow_pos _), Nat.div_eq_of_lt (hlen' ▸ hxlt),
          Nat.div_eq_of_lt hylt] at h1
        omega
      subst hxy
      have htails : beVal xs = beVal ys := by omega
      rw [ih hlen' hxs hys htails]

theorem lor_two_pow_add {k a b : Nat} (hb : b < 2 ^ k) :
    a * 2 ^ k ||| b = a * 2 ^ k + b := by
  apply Nat.eq_of_testBit_eq
  intro i
  rw [Nat.testBit_or]
  by_cases hik : k ≤ i
  · have h1 : b.testBit i = false :=
      Nat.testBit_lt_two_pow (lt_of_lt_of_le hb (Nat.pow_le_pow_right (by norm_num) hik))
    have hsplit : (2 : Nat) ^ i = 2 ^ k * 2 ^ (i - k) := by
      rw [← pow_add]
      congr 1
      omega
    have e1 : (a * 2 ^ k + b) / 2 ^ i = a / 2 ^ (i - k) := by
      rw [hsplit, ← Nat.div_div_eq_div_mul]
      congr 1
      rw [Nat.mul_comm, Nat.mul_add_div (Nat.two_pow_pos k), Nat.div_eq_of_lt hb,
        Nat.add_zero]
    have e2 : a * 2 ^ k / 2 ^ i = a / 2 ^ (i - k) := by
      rw [hsplit, ← Nat.div_div_eq_div_mul, Nat.mul_div_cancel _ (Nat.two_pow_pos k)]
    rw [h1, Bool.or_false, Nat.testBit_to_div_mod, Nat.testBit_to_div_mod, e1, e2]
  · push_neg at hik
    have hsplit : (2 : Nat) ^ k = 2 ^ (k - i) * 2 ^ i := by
      rw [← pow_add]
      congr 1
      omega
    have h1 : (a * 2 ^ k).testBit i = false := by
      rw [Nat.testBit_to_div_mod]
      have e : a * 2 ^ k / 2 ^ i = a * 2 ^ (k - i) := by
        rw [hsplit, ← Nat.mul_assoc, Nat.mul_div_cancel _ (Nat.two_pow_pos i)]
      have hmod : a * 2 ^ (k - i) % 2 = 0 := by
        rw [show k - i = (k - i - 1) + 1 by omega, pow_succ, ← Nat.mul_assoc]
        simp [Nat.mul_mod_left]
      rw [e]
      simp [hmod]
    have h2 : (a * 2 ^ k + b).testBit i = b.testBit i := by
      rw [Nat.testBit_to_div_mod, Nat.testBit_to_div_mod]
      have e : (a * 2 ^ k + b) / 2 ^ i = b / 2 ^ i + a * 2 ^ (k - i) := by
        rw [hsplit, ← Nat.mul_assoc, Nat.add_comm,
          Nat.add_mul_div_right _ _ (Nat.two_pow_pos i)]
      rw [e, show a * 2 ^ (k - i) = a * 2 ^ (k - i - 1) * 2 by
        rw [Nat.mul_assoc, ← pow_succ]
        congr 2
        omega]
      rw [Nat.add_mul_mod_self_right]
    rw [h1, h2, Bool.false_or]

theorem beVal_append (l1 l2 : List Nat) :
    beVal (l1 ++ l2) = beVal l1 * 2 ^ (8 * l2.length) + beVal l2 := by
  induction l1 with
  | nil => simp [beVal]
  | cons b r ih =>
    show beVal (b :: (r ++ l2)) = _
    rw [show beVal (b :: (r ++ l2)) =
      b * 2 ^ (8 * (r ++ l2).length) + beVal (r ++ l2) from rfl]
    rw [ih, List.length_append, Nat.mul_add 8, pow_add, beVal]
    ring

/-! Lemmas about the big-endian increment `operator++`. -/

theorem incBE_length (l : List Nat) : (incBE l).1.length = l.length := by
  induction l with
  | nil => rfl
  | cons b r ih =>
    rcases he : incBE r with ⟨r', c⟩
    rw [he] at ih
    cases c <;> simp [incBE, he] <;> simpa using ih

theorem incBE_valid {l : List Nat} (h : validBytes l) : validBytes (incBE l).1 := by
  induction l with
  | nil => intro x hx; simp [incBE] at hx
  | cons b r ih =>
    obtain ⟨hb, hr⟩ := validBytes_cons h
    have ih' := ih hr
    rcases he : incBE r with ⟨r', c⟩
    rw [he] at ih'
    cases c with
    | true =>
      intro x hx
      simp only [incBE, he] at hx
      rcases List.mem_cons.mp hx with hx | hx
      · subst hx
        exact Nat.mod_lt _ (by norm_num)
      · exact ih' x hx
    | false =>
      intro x hx
      simp only [incBE, he] at hx
      rcases List.mem_cons.mp hx with hx | hx
      · subst hx
        exact hb
      · exact ih' x hx

theorem incBE_adder {l : List Nat} (h : validBytes l) :
    beVal (incBE l).1 + (incBE l).2.toNat * 2 ^ (8 * l.length) = beVal l + 1 := by
  induction l with
  | nil => simp [incBE, beVal]
  | cons b r ih =>
    obtain ⟨hb, hr⟩ := validBytes_cons h
    have ihr := ih hr
    rcases he : incBE r with ⟨r', c⟩
    rw [he] at ihr
    have hlen : r'.length = r.length := by
      have := incBE_length r
      rw [he] at this
      exact this
    cases c with
    | true =>
      simp only [Bool.toNat_true, Nat.one_mul] at ihr
      by_cases hb255 : b = 255
      · subst hb255
        have hmod : (255 + 1) % 256 = 0 := by norm_num
        simp only [incBE, he, hmod, beVal, List.length_cons, hlen, beq_self_eq_true,
          Bool.toNat_true, Nat.one_mul, Nat.zero_mul, Nat.zero_add, two_pow_mul_succ]
        omega
      · have hmod : (b + 1) % 256 = b + 1 := Nat.mod_eq_of_lt (by omega)
        simp only [incBE, he, hmod, beVal, hlen, List.length_cons]
        have hne : (b + 1 == 0) = false := by simp
        rw [hne]
        simp only [Bool.toNat_false, Nat.zero_mul, Nat.add_zero]
        have hexp : (b + 1) * 2 ^ (8 * r.length) =
            b * 2 ^ (8 * r.length) + 2 ^ (8 * r.length) := by ring
        rw [hexp]
        generalize b * 2 ^ (8 * r.length) = t
        omega
    | false =>
      simp only [Bool.toNat_false, Nat.zero_mul, Nat.add_zero] at ihr
      simp only [incBE, he, beVal, hlen, Bool.toNat_false, Nat.zero_mul, Nat.add_zero,
        List.length_cons]
      omega

theorem incBE_replicate_255 (n : Nat) :
    incBE (List.replicate n 255) = (List.replicate n 0, true) := by
  induction n with
  | zero => rfl
  | succ k ih => simp [List.replicate_succ, incBE, ih]

/-- Claim C3: the pre-increment treats the bytes as one big-endian
unsigned integer and adds 1 with wraparound: the decoding of the result
is `(decoding + 1) mod 2^(8 * N)`, and the all-0xFF value wraps silently
to all-zero. -/
theorem claim_C3_inc_bigEndian (l : List Nat) (h : validBytes l) :
    beVal (inc l) = (beVal l + 1) % 2 ^ (8 * l.length) ∧
      (l = List.replicate l.length 255 → inc l = List.replicate l.length 0) := by
  constructor
  · have hadd := incBE_adder h
    have hlt := beVal_lt h
    rw [show inc l = (incBE l).1 from rfl]
    cases hc : (incBE l).2 with
    | true =>
      rw [hc, Bool.toNat_true, Nat.one_mul] at hadd
      have h1 : beVal l + 1 = 2 ^ (8 * l.length) := by omega
      have h2 : beVal (incBE l).1 = 0 := by omega
      rw [h2, h1, Nat.mod_self]
    | false =>
      rw [hc, Bool.toNat_false, Nat.zero_mul, Nat.add_zero] at hadd
      have hlt' : beVal (incBE l).1 < 2 ^ (8 * l.length) := by
        have := beVal_lt (incBE_valid h)
        rw [incBE_length] at this
        exact this
      rw [hadd, Nat.mod_eq_of_lt (by omega)]
  · intro hl
    rw [hl, show inc (List.replicate l.length 255) =
      (incBE (List.replicate l.length 255)).1 from rfl, incBE_replicate_255]
    simp

/-- Witness for C3 at the all-0xFF two-byte value. -/
theorem claim_C3_witness :
    beVal (inc [255, 255]) = (beVal [255, 255] + 1) % 2 ^ (8 * ([255, 255] : List Nat).length) ∧
      (([255, 255] : List Nat) = List.replicate ([255, 255] : List Nat).length 255 →
        inc [255, 255] = List.replicate ([255, 255] : List Nat).length 0) :=
  claim_C3_inc_bigEndian [255, 255] (by decide)

/-! Lemmas about the big-endian codec. -/

theorem fromBigEndian_go {n : Nat} : ∀ {l : List Nat} (a : Nat), validBytes l →
    l.length ≤ n → a < 2 ^ (8 * (n - l.length)) →
    l.foldl (fun ret b => ((ret <<< 8) % 2 ^ (8 * n)) ||| b) a =
      a * 2 ^ (8 * l.length) + beVal l := by
  intro l
  induction l with
  | nil => intro a _ _ _; simp [beVal]
  | cons b r ih =>
    intro a hv hlen ha
    obtain ⟨hb, hr⟩ := validBytes_cons hv
    have hlen' : r.length + 1 ≤ n := by simpa using hlen
    have hsucc : 2 ^ (8 * (n - r.length)) = 256 * 2 ^ (8 * (n - (r.length + 1))) := by
      rw [show n - r.length = (n - (r.length + 1)) + 1 by omega, two_pow_mul_succ]
    have hshift : a <<< 8 < 2 ^ (8 * n) := by
      rw [Nat.shiftLeft_eq]
      calc a * 2 ^ 8 < 2 ^ (8 * (n - (r.length + 1))) * 2 ^ 8 :=
        Nat.mul_lt_mul_of_lt_of_le (by simpa using ha) (le_refl _) (Nat.two_pow_pos 8)
      _ ≤ 2 ^ (8 * n) := by
        rw [← pow_add]
        exact Nat.pow_le_pow_right (by norm_num) (by omega)
    have hstep : ((a <<< 8) % 2 ^ (8 * n)) ||| b = a * 2 ^ 8 + b := by
      rw [Nat.mod_eq_of_lt hshift, Nat.shiftLeft_eq]
      exact lor_two_pow_add (by simpa using hb)
    rw [List.foldl_cons, hstep]
    have ha' : a * 2 ^ 8 + b < 2 ^ (8 * (n - r.length)) := by
      rw [hsucc]
      have h1 : a * 2 ^ 8 + b < (a + 1) * 2 ^ 8 := by
        have hx : (a + 1) * 2 ^ 8 = a * 2 ^ 8 + 2 ^ 8 := by ring
        rw [hx]
        simp only [show (2 : Nat) ^ 8 = 256 from rfl]
        omega
      have h2 : (a + 1) * 2 ^ 8 ≤ 2 ^ (8 * (n - (r.length + 1))) * 2 ^ 8 :=
        Nat.mul_le_mul_right _ (by simpa using ha)
      calc a * 2 ^ 8 + b < (a + 1) * 2 ^ 8 := h1
      _ ≤ 2 ^ (8 * (n - (r.length + 1))) * 2 ^ 8 := h2
      _ = 256 * 2 ^ (8 * (n - (r.length + 1))) := by
        rw [show (2 : Nat) ^ 8 = 256 from rfl]
        ring
    rw [ih (a * 2 ^ 8 + b) hr (by omega) (by simpa using ha')]
    simp only [beVal, List.length_cons, two_pow_mul_succ]
    ring

theorem fromBigEndian_eq_beVal {n : Nat} {l : List Nat} (hv : validBytes l)
    (hlen : l.length = n) : fromBigEndian n l = beVal l := by
  unfold fromBigEndian
  rw [fromBigEndian_go 0 hv (le_of_eq hlen) (Nat.two_pow_pos _)]
  simp

theorem toBigEndian_beVal : ∀ {l : List Nat}, validBytes l →
    toBigEndian (beVal l) l.length = l := by
  intro l
  induction l using List.reverseRecOn with
  | nil => intro _; rfl
  | append_singleton l' b ih =>
    intro hv
    have hv' : validBytes l' := fun x hx => hv x (List.mem_append_left _ hx)
    have hb : b < 256 := hv b (List.mem_append_right _ (List.mem_cons_self _ _))
    have hval : beVal (l' ++ [b]) = 256 * beVal l' + b := by
      rw [beVal_append]
      simp [beVal]
      ring
    have h1 : (256 * beVal l' + b) >>> 8 = beVal l' := by
      rw [Nat.shiftRight_eq_div_pow, show (2 : Nat) ^ 8 = 256 from rfl,
        Nat.mul_add_div (by norm_num), Nat.div_eq_of_lt hb, Nat.add_zero]
    have h2 : (256 * beVal l' + b) &&& 0xff = b := by
      rw [show (0xff : Nat) = 2 ^ 8 - 1 from rfl, Nat.and_pow_two_sub_one_eq_mod,
        show (2 : Nat) ^ 8 = 256 from rfl, Nat.mul_add_mod, Nat.mod_eq_of_lt hb]
    have hlen : (l' ++ [b]).length = l'.length + 1 := by simp
    rw [hlen, hval]
    show toBigEndian (256 * beVal l' + b) (l'.length + 1) = l' ++ [b]
    simp only [toBigEndian, h1, h2]
    rw [ih hv']

/-- Claim C8: encoding the big-endian decoding of an N-byte value back
into N bytes reproduces the value exactly, when the arithmetic type has
exactly `N * 8` bits. -/
theorem claim_C8_roundTrip {n : Nat} {l : List Nat} (hlen : l.length = n)
    (hv : validBytes l) : toBigEndian (fromBigEndian n l) n = l := by
  rw [fromBigEndian_eq_beVal hv hlen, ← hlen, toBigEndian_beVal hv]

/-- Witness for C8 at a three-byte value. -/
theorem claim_C8_witness : toBigEndian (fromBigEndian 3 [7, 255, 0]) 3 = [7, 255, 0] :=
  claim_C8_roundTrip (by decide) (by decide)

/-! Lemmas about the relational operators. -/

theorem lex_head_lt {x y cx C : Nat} (h1 : x < y) (hcx : cx < C) (cy : Nat) :
    x * C + cx < y * C + cy := by
  have hx1 : (x + 1) * C = x * C + C := by ring
  calc x * C + cx < (x + 1) * C := by
        rw [hx1]
        exact Nat.add_lt_add_left hcx _
    _ ≤ y * C := Nat.mul_le_mul_right _ h1
    _ ≤ y * C + cy := Nat.le_add_right _ _

theorem fhLt_iff : ∀ {a b : List Nat}, a.length = b.length → validBytes a →
    validBytes b → (fhLt a b = true ↔ beVal a < beVal b) := by
  intro a
  induction a with
  | nil =>
    intro b hlen _ _
    cases b with
    | nil => simp [fhLt, beVal]
    | cons y ys => simp at hlen
  | cons x xs ih =>
    intro b hlen ha hb
    cases b with
    | nil => simp at hlen
    | cons y ys =>
      obtain ⟨hx, hxs⟩ := validBytes_cons ha
      obtain ⟨hy, hys⟩ := validBytes_cons hb
      have hlen' : xs.length = ys.length := by simpa using hlen
      have hxlt := beVal_lt hxs
      have hylt := beVal_lt hys
      show (if x < y then true else if y < x then false else fhLt xs ys) = true ↔ _
      rw [show beVal (x :: xs) = x * 2 ^ (8 * xs.length) + beVal xs from rfl,
        show beVal (y :: ys) = y * 2 ^ (8 * ys.length) + beVal ys from rfl, hlen']
      by_cases h1 : x < y
      · rw [if_pos h1]
        exact iff_of_true rfl (lex_head_lt h1 (hlen' ▸ hxlt) _)
      · by_cases h2 : y < x
        · rw [if_neg h1, if_pos h2]
          refine iff_of_false (by simp) (Nat.not_lt.mpr (Nat.le_of_lt ?_))
          exact lex_head_lt h2 hylt _
        · have hxy : x = y := by omega
          subst hxy
          rw [if_neg h1, if_neg h2, ih hlen' hxs hys]
          exact ⟨fun h => Nat.add_lt_add_left h _, fun h => Nat.lt_of_add_lt_add_left h⟩

/-- Claim C7: the relational operators implement lexicographic byte-wise
comparison, which coincides with unsigned big-endian numeric comparison,
and together with equality they give a total order. -/
theorem claim_C7_ordering {a b : List Nat} (hlen : a.length = b.length)
    (ha : validBytes a) (hb : validBytes b) :
    (fhLt a b = true ↔ beVal a < beVal b) ∧
      (fhLe a b = true ↔ beVal a ≤ beVal b) ∧
      (fhGt a b = true ↔ beVal b < beVal a) ∧
      (fhGe a b = true ↔ beVal b ≤ beVal a) ∧
      (fhLt a b = true ∨ a = b ∨ fhLt b a = true) := by
  have hlt := fhLt_iff hlen ha hb
  have hltba := fhLt_iff hlen.symm hb ha
  have heq : fhEq a b = true ↔ a = b := by simp [fhEq]
  have hle : fhLe a b = true ↔ beVal a ≤ beVal b := by
    rw [fhLe, Bool.or_eq_true, hlt, heq]
    constructor
    · rintro (rfl | hlt')
      · exact Nat.le_refl _
      · exact Nat.le_of_lt hlt'
    · intro hle'
      rcases Nat.eq_or_lt_of_le hle' with heq' | hlt'
      · exact Or.inl (beVal_inj hlen ha hb heq')
      · exact Or.inr hlt'
  refine ⟨hlt, hle, ?_, ?_, ?_⟩
  · rw [show fhGt a b = !fhLe a b from rfl, Bool.not_eq_true', ← Bool.not_eq_true, hle,
      Nat.not_le]
  · rw [show fhGe a b = !fhLt a b from rfl, Bool.not_eq_true', ← Bool.not_eq_true, hlt,
      Nat.not_lt]
  · rcases Nat.lt_trichotomy (beVal a) (beVal b) with h | h | h
    · exact Or.inl (hlt.mpr h)
    · exact Or.inr (Or.inl (beVal_inj hlen ha hb h))
    · exact Or.inr (Or.inr (hltba.mpr h))

/-- Witness for C7 at a pair of two-byte values. -/
theorem claim_C7_witness :
    ([1, 2] : List Nat).length = ([1, 3] : List Nat).length ∧
      ((fhLt [1, 2] [1, 3] = true ↔ beVal [1, 2] < beVal [1, 3]) ∧
        (fhLe [1, 2] [1, 3] = true ↔ beVal [1, 2] ≤ beVal [1, 3]) ∧
        (fhGt [1, 2] [1, 3] = true ↔ beVal [1, 3] < beVal [1, 2]) ∧
        (fhGe [1, 2] [1, 3] = true ↔ beVal [1, 3] ≤ beVal [1, 2]) ∧
        (fhLt [1, 2] [1, 3] = true ∨ ([1, 2] : List Nat) = [1, 3] ∨
          fhLt [1, 3] [1, 2] = true)) :=
  ⟨rfl, claim_C7_ordering rfl (by decide) (by decide)⟩

/-! Lemmas about `firstBitSet`. -/

set_option maxRecDepth 4096 in
theorem clz8_correct : ∀ d, d < 256 → 0 < d →
    clz8 8 d < 8 ∧ d.testBit (7 - clz8 8 d) = true ∧
      (∀ j, j < 8 → 7 - clz8 8 d < j → d.testBit j = false) := by decide

theorem bitAt_cons_low {d : Nat} {r : List Nat} {j : Nat} (hj : j < 8) :
    bitAt (d :: r) j = d.testBit (7 - j) := by
  unfold bitAt
  rw [Nat.div_eq_of_lt hj, Nat.mod_eq_of_lt hj]
  rfl

theorem bitAt_cons_high (d : Nat) (r : List Nat) (j : Nat) :
    bitAt (d :: r) (8 + j) = bitAt r j := by
  unfold bitAt
  rw [Nat.add_comm 8 j, Nat.add_div_right _ (by norm_num), Nat.add_mod_right]
  rfl

theorem firstBitSet_allZero : ∀ {l : List Nat}, (∀ b ∈ l, b = 0) →
    firstBitSet l = 8 * l.length := by
  intro l
  induction l with
  | nil => intro _; rfl
  | cons d r ih =>
    intro h
    have hd : d = 0 := h d (List.mem_cons_self _ _)
    subst hd
    have hstep : firstBitSet (0 :: r) = 8 + firstBitSet r := by simp [firstBitSet]
    rw [hstep, ih (fun b hb => h b (List.mem_cons_of_mem _ hb)), List.length_cons]
    ring

theorem firstBitSet_found : ∀ {l : List Nat}, validBytes l → (¬ ∀ b ∈ l, b = 0) →
    firstBitSet l < 8 * l.length ∧ bitAt l (firstBitSet l) = true ∧
      ∀ j, j < firstBitSet l → bitAt l j = false := by
  intro l
  induction l with
  | nil => intro _ hnz; exact absurd (by simp) hnz
  | cons d r ih =>
    intro hv hnz
    obtain ⟨hd, hr⟩ := validBytes_cons hv
    by_cases hd0 : d = 0
    · subst hd0
      have hnz' : ¬ ∀ b ∈ r, b = 0 := by
        intro hall
        refine hnz ?_
        intro b hb
        rcases List.mem_cons.mp hb with h | h
        · exact h
        · exact hall b h
      obtain ⟨h1, h2, h3⟩ := ih hr hnz'
      have hstep : firstBitSet (0 :: r) = 8 + firstBitSet r := by simp [firstBitSet]
      refine ⟨?_, ?_, ?_⟩
      · rw [hstep, List.length_cons]
        omega
      · rw [hstep, bitAt_cons_high]
        exact h2
      · intro j hj
        rw [hstep] at hj
        by_cases hj8 : j < 8
        · rw [bitAt_cons_low hj8]
          simp
        · rw [show j = 8 + (j - 8) by omega, bitAt_cons_high]
          exact h3 _ (by omega)
    · have hstep : firstBitSet (d :: r) = clz8 8 d := by simp [firstBitSet, hd0]
      obtain ⟨h1, h2, h3⟩ := clz8_correct d hd (Nat.pos_of_ne_zero hd0)
      refine ⟨?_, ?_, ?_⟩
      · rw [hstep, List.length_cons]
        omega
      · rw [hstep, bitAt_cons_low (by omega)]
        exact h2
      · intro j hj
        rw [hstep] at hj
        rw [bitAt_cons_low (by omega)]
        exact h3 (7 - j) (by omega) (by omega)

theorem firstBitSet_lsbLast : ∀ k : Nat,
    firstBitSet (List.replicate k 0 ++ [1]) = 8 * k + 7 := by
  intro k
  induction k with
  | zero => decide
  | succ q ih =>
    rw [List.replicate_succ, List.cons_append,
      show firstBitSet (0 :: (List.replicate q 0 ++ [1])) =
        8 + firstBitSet (List.replicate q 0 ++ [1]) by simp [firstBitSet], ih]
    ring

/-- Claim C9: `firstBitSet` returns the index of the first set bit in
most-significant-first order, `8 * N` on the all-zero value, and
`8 * N - 1` when only the least-significant bit of the last byte is
set. -/
theorem claim_C9_firstBitSet {l : List Nat} (hv : validBytes l) :
    (l = List.replicate l.length 0 → firstBitSet l = 8 * l.length) ∧
      (l ≠ List.replicate l.length 0 →
        firstBitSet l < 8 * l.length ∧ bitAt l (firstBitSet l) = true ∧
          ∀ j, j < firstBitSet l → bitAt l j = false) ∧
      (l = List.replicate (l.length - 1) 0 ++ [1] →
        firstBitSet l = 8 * l.length - 1) := by
  refine ⟨?_, ?_, ?_⟩
  · intro hl
    refine firstBitSet_allZero ?_
    intro b hb
    rw [hl] at hb
    exact List.eq_of_mem_replicate hb
  · intro hl
    refine firstBitSet_found hv ?_
    intro hall
    refine hl (List.eq_replicate_iff.mpr ⟨rfl, hall⟩)
  · intro hl
    have hlen1 : (List.replicate (l.length - 1) 0 ++ [1] : List Nat).length =
        (l.length - 1) + 1 := by simp
    rw [hl, firstBitSet_lsbLast, hlen1]
    omega

/-- Witness for C9 at the two-byte value with only the bottom bit of the
last byte set. -/
theorem claim_C9_witness :
    validBytes [0, 1] ∧
      ((([0, 1] : List Nat) = List.replicate ([0, 1] : List Nat).length 0 →
          firstBitSet [0, 1] = 8 * ([0, 1] : List Nat).length) ∧
        (([0, 1] : List Nat) ≠ List.replicate ([0, 1] : List Nat).length 0 →
          firstBitSet [0, 1] < 8 * ([0, 1] : List Nat).length ∧
            bitAt [0, 1] (firstBitSet [0, 1]) = true ∧
            ∀ j, j < firstBitSet [0, 1] → bitAt [0, 1] j = false) ∧
        (([0, 1] : List Nat) =
            List.replicate (([0, 1] : List Nat).length - 1) 0 ++ [1] →
          firstBitSet [0, 1] = 8 * ([0, 1] : List Nat).length - 1)) :=
  ⟨by decide, claim_C9_firstBitSet (by decide)⟩

/-! Lemmas about the aligned copy loop of the constructors. -/

theorem ext_of_getD {a b : List Nat} (hlen : a.length = b.length)
    (h : ∀ k, k < a.length → a.getD k 0 = b.getD k 0) : a = b := by
  refine List.ext_getElem hlen ?_
  intro i h1 h2
  have hi := h i h1
  rw [List.getD_eq_getElem?_getD, List.getD_eq_getElem?_getD,
    List.getElem?_eq_getElem h1, List.getElem?_eq_getElem h2] at hi
  simpa using hi

theorem getD_map_range {f : Nat → Nat} {n k : Nat} :
    ((List.range n).map f).getD k 0 = if k < n then f k else 0 := by
  rw [List.getD_eq_getElem?_getD, List.getElem?_map]
  by_cases hk : k < n
  · rw [List.getElem?_range hk, if_pos hk]
    rfl
  · rw [List.getElem?_eq_none (by simpa using hk), if_neg hk]
    rfl

theorem copyAligned_length (n : Nat) (src : List Nat) (ar : Bool) :
    ∀ c, (copyAligned n src ar c).length = n := by
  intro c
  induction c with
  | zero => simp [copyAligned]
  | succ q ih =>
    unfold copyAligned at ih ⊢
    rw [List.range_succ, List.foldl_append, List.foldl_cons, List.foldl_nil,
      List.length_set]
    exact ih

theorem copyAligned_succ (n : Nat) (src : List Nat) (ar : Bool) (q : Nat) :
    copyAligned n src ar (q + 1) =
      (copyAligned n src ar q).set (cond ar (n - 1 - q) q)
        (src.getD (cond ar (src.length - 1 - q) q) 0) := by
  unfold copyAligned
  rw [List.range_succ, List.foldl_append, List.foldl_cons, List.foldl_nil]

theorem copyAligned_getD_left {n : Nat} {src : List Nat} :
    ∀ {c : Nat}, c ≤ n → ∀ {k : Nat}, k < n →
      (copyAligned n src false c).getD k 0 = if k < c then src.getD k 0 else 0 := by
  intro c
  induction c with
  | zero =>
    intro _ k hk
    unfold copyAligned
    rw [List.range_zero, List.foldl_nil, getD_replicate, if_neg (by omega)]
  | succ q ih =>
    intro hcn k hk
    rw [copyAligned_succ, Bool.cond_false, Bool.cond_false]
    by_cases hkq : k = q
    · subst hkq
      rw [getD_set_self (by rw [copyAligned_length]; omega), if_pos (by omega)]
    · rw [getD_set_ne _ (fun h => hkq h.symm), ih (by omega) hk]
      by_cases hlt : k < q
      · rw [if_pos hlt, if_pos (by omega)]
      · rw [if_neg hlt, if_neg (by omega)]

theorem copyAligned_getD_right {n : Nat} {src : List Nat} :
    ∀ {c : Nat}, c ≤ n → c ≤ src.length → ∀ {k : Nat}, k < n →
      (copyAligned n src true c).getD k 0 =
        if n - c ≤ k then src.getD (src.length - (n - k)) 0 else 0 := by
  intro c
  induction c with
  | zero =>
    intro _ _ k hk
    unfold copyAligned
    rw [List.range_zero, List.foldl_nil, getD_replicate, if_neg (by omega)]
  | succ q ih =>
    intro hcn hcs k hk
    rw [copyAligned_succ, Bool.cond_true, Bool.cond_true]
    by_cases hkq : k = n - 1 - q
    · subst hkq
      rw [getD_set_self (by rw [copyAligned_length]; omega), if_pos (by omega)]
      congr 1
      omega
    · rw [getD_set_ne _ (fun h => hkq h.symm), ih (by omega) (by omega) hk]
      by_cases hge : n - q ≤ k
      · rw [if_pos hge, if_pos (by omega)]
      · rw [if_neg hge, if_neg (by omega)]

/-- Claim C4: constructing from a variable-length byte sequence copies
verbatim at exact length regardless of policy; at a different length
`FailIfDifferent` yields all-zero, while the align policies zero-fill
and copy `min(length, N)` bytes matched from the starts (`AlignLeft`) or
the ends (`AlignRight`). -/
theorem claim_C4_fromBytes (n : Nat) (b : List Nat) :
    (b.length = n → ∀ t, fromBytes n b t = b) ∧
      (b.length ≠ n → fromBytes n b FailIfDifferent = List.replicate n 0) ∧
      (b.length ≠ n → fromBytes n b AlignLeft =
        (List.range n).map fun j => if j < min b.length n then b.getD j 0 else 0) ∧
      (b.length ≠ n → fromBytes n b AlignRight =
        (List.range n).map fun j =>
          if n - min b.length n ≤ j then b.getD (b.length - (n - j)) 0 else 0) := by
  refine ⟨?_, ?_, ?_, ?_⟩
  · intro hlen t
    unfold fromBytes
    rw [if_pos hlen]
  · intro hlen
    unfold fromBytes
    rw [if_neg hlen, if_pos rfl]
  · intro hlen
    unfold fromBytes
    rw [if_neg hlen, if_neg (by simp),
      show decide (AlignLeft = AlignRight) = false from rfl]
    refine ext_of_getD ?_ ?_
    · rw [copyAligned_length]
      simp
    · intro k hk
      rw [copyAligned_length] at hk
      rw [copyAligned_getD_left (Nat.min_le_right _ _) hk, getD_map_range, if_pos hk]
  · intro hlen
    unfold fromBytes
    rw [if_neg hlen, if_neg (by simp),
      show decide (AlignRight = AlignRight) = true from rfl]
    refine ext_of_getD ?_ ?_
    · rw [copyAligned_length]
      simp
    · intro k hk
      rw [copyAligned_length] at hk
      rw [copyAligned_getD_right (Nat.min_le_right _ _) (Nat.min_le_left _ _) hk,
        getD_map_range, if_pos hk]

/-- Witness for C4 at `N = 4` with a two-byte source and at exact
length. -/
theorem claim_C4_witness :
    fromBytes 4 [1, 2] FailIfDifferent = List.replicate 4 0 ∧
      fromBytes 4 [1, 2] AlignLeft =
        ((List.range 4).map fun j =>
          if j < min ([1, 2] : List Nat).length 4 then ([1, 2] : List Nat).getD j 0
          else 0) ∧
      fromBytes 4 [1, 2] AlignRight =
        ((List.range 4).map fun j =>
          if 4 - min ([1, 2] : List Nat).length 4 ≤ j then
            ([1, 2] : List Nat).getD (([1, 2] : List Nat).length - (4 - j)) 0
          else 0) ∧
      fromBytes 4 [1, 2, 3, 4] AlignLeft = [1, 2, 3, 4] :=
  ⟨(claim_C4_fromBytes 4 [1, 2]).2.1 (by decide),
    (claim_C4_fromBytes 4 [1, 2]).2.2.1 (by decide),
    (claim_C4_fromBytes 4 [1, 2]).2.2.2 (by decide),
    (claim_C4_fromBytes 4 [1, 2, 3, 4]).1 rfl AlignLeft⟩

/-- Claim C5: extracting the last 20 bytes of a 32-byte value via the
cross-size constructor with `AlignRight` agrees with `right160`, and
both return exactly bytes 12..31. -/
theorem claim_C5_right160 {h : List Nat} (hlen : h.length = 32) :
    fromOther 20 h AlignRight = right160 h ∧ right160 h = h.drop 12 := by
  constructor
  · unfold fromOther right160
    rw [show decide (AlignRight = AlignRight) = true from rfl]
    refine ext_of_getD ?_ ?_
    · rw [copyAligned_length]
      simp
    · intro k hk
      rw [copyAligned_length] at hk
      rw [copyAligned_getD_right (Nat.min_le_right _ _) (Nat.min_le_left _ _) hk,
        getD_map_range, if_pos hk, hlen]
      rw [if_pos (by omega)]
      congr 1
      omega
  · unfold right160
    refine ext_of_getD ?_ ?_
    · rw [List.length_map, List.length_range, List.length_drop, hlen]
    · intro k hk
      rw [List.length_map, List.length_range] at hk
      rw [getD_map_range, if_pos hk, List.getD_eq_getElem?_getD,
        List.getD_eq_getElem?_getD, List.getElem?_drop]

/-- Witness for C5 at the 32-byte value `0, 1, ..., 31`. -/
theorem claim_C5_witness :
    (List.range 32).length = 32 ∧
      (fromOther 20 (List.range 32) AlignRight = right160 (List.range 32) ∧
        right160 (List.range 32) = (List.range 32).drop 12) :=
  ⟨by decide, claim_C5_right160 (by decide)⟩

/-! Lemmas about the specialised 32-byte equality. -/

theorem leLoad_getD : ∀ {l : List Nat}, validBytes l → ∀ {j : Nat}, j < l.length →
    leLoad l / 256 ^ j % 256 = l.getD j 0 := by
  intro l
  induction l with
  | nil => intro _ j hj; simp at hj
  | cons b r ih =>
    intro hv j hj
    obtain ⟨hb, hr⟩ := validBytes_cons hv
    cases j with
    | zero =>
      show leLoad (b :: r) / 256 ^ 0 % 256 = b
      rw [pow_zero, Nat.div_one, show leLoad (b :: r) = b + 256 * leLoad r from rfl,
        Nat.add_mul_mod_self_left, Nat.mod_eq_of_lt hb]
    | succ j' =>
      show leLoad (b :: r) / 256 ^ (j' + 1) % 256 = r.getD j' 0
      rw [show leLoad (b :: r) = b + 256 * leLoad r from rfl, pow_succ',
        ← Nat.div_div_eq_div_mul, Nat.add_mul_div_left _ _ (by norm_num),
        Nat.div_eq_of_lt hb, Nat.zero_add]
      exact ih hr (by simpa using hj)

theorem word64_getD {a : List Nat} (hla : a.length = 32) (hva : validBytes a)
    {k : Nat} (hk : k < 32) :
    a.getD k 0 = word64 a (k / 8) / 256 ^ (k % 8) % 256 := by
  unfold word64
  have hslice_len : ((a.drop (8 * (k / 8))).take 8).length = 8 := by
    rw [List.length_take, List.length_drop, hla]
    omega
  have hslice_valid : validBytes ((a.drop (8 * (k / 8))).take 8) :=
    fun x hx => hva x (List.mem_of_mem_drop (List.mem_of_mem_take hx))
  have hj : k % 8 < ((a.drop (8 * (k / 8))).take 8).length := by
    rw [hslice_len]
    omega
  rw [leLoad_getD hslice_valid hj, List.getD_eq_getElem?_getD,
    List.getD_eq_getElem?_getD, List.getElem?_take, if_pos (by omega),
    List.getElem?_drop, show 8 * (k / 8) + k % 8 = k by omega]

/-- Claim C6: the specialised `FixedHash<32>::operator==`, which compares
four 8-byte machine words, returns exactly the same boolean as the
generic byte-wise equality on every pair of 32-byte values. -/
theorem claim_C6_fastEq {a b : List Nat} (hla : a.length = 32) (hlb : b.length = 32)
    (hva : validBytes a) (hvb : validBytes b) : fastEq32 a b = fhEq a b := by
  have hiff : fastEq32 a b = true ↔ a = b := by
    constructor
    · intro hfe
      simp only [fastEq32, Bool.and_eq_true, decide_eq_true_eq] at hfe
      obtain ⟨⟨⟨h0, h1⟩, h2⟩, h3⟩ := hfe
      refine ext_of_getD (by omega) ?_
      intro k hk
      rw [hla] at hk
      rw [word64_getD hla hva hk, word64_getD hlb hvb hk]
      have hdiv : k / 8 = 0 ∨ k / 8 = 1 ∨ k / 8 = 2 ∨ k / 8 = 3 := by omega
      rcases hdiv with h | h | h | h <;> rw [h] <;> simp only [h0, h1, h2, h3]
    · intro heq
      subst heq
      simp [fastEq32]
  have hiff2 : fhEq a b = true ↔ a = b := by simp [fhEq]
  cases hfe : fastEq32 a b with
  | true => exact (hiff2.mpr (hiff.mp hfe)).symm
  | false =>
    cases hge : fhEq a b with
    | false => rfl
    | true =>
      have hcontra := hiff.mpr (hiff2.mp hge)
      rw [hfe] at hcontra
      simp at hcontra

/-- Witness for C6 at two concrete 32-byte values. -/
theorem claim_C6_witness :
    (List.range 32).length = 32 ∧ (List.replicate 32 7 : List Nat).length = 32 ∧
      fastEq32 (List.range 32) (List.replicate 32 7) =
        fhEq (List.range 32) (List.replicate 32 7) :=
  ⟨by decide, by decide,
    claim_C6_fastEq (by decide) (by decide) (by decide) (by decide)⟩

/-! Lemmas about the bloom-filter operations. -/

theorem StaticLog2_two_pow : ∀ k : Nat, StaticLog2 (2 ^ k) = k := by
  intro k
  induction k with
  | zero => simp [StaticLog2]
  | succ q ih =>
    have h2le : 2 ≤ 2 ^ (q + 1) := by
      calc 2 = 2 ^ 1 := rfl
        _ ≤ 2 ^ (q + 1) := Nat.pow_le_pow_right (by norm_num) (by omega)
    have h2 : 2 ^ (q + 1) = (2 ^ (q + 1) - 2) + 2 := by omega
    rw [h2]
    simp only [StaticLog2]
    rw [← h2]
    have hdiv : 2 ^ (q + 1) / 2 = 2 ^ q := by
      rw [pow_succ]
      exact Nat.mul_div_cancel _ (by norm_num)
    rw [hdiv, ih]
    omega

theorem bloomBytes_32 : bloomBytes 32 = 1 := by
  unfold bloomBytes
  rw [show (32 * 8 : Nat) = 2 ^ 8 by norm_num, StaticLog2_two_pow]

theorem nat_or_and_self (x y : Nat) : (x ||| y) &&& y = y := by
  apply Nat.eq_of_testBit_eq
  intro i
  rw [Nat.testBit_and, Nat.testBit_or]
  cases x.testBit i <;> cases y.testBit i <;> rfl

theorem andBytes_orBytes_self : ∀ (a p : List Nat), a.length = p.length →
    andBytes (orBytes a p) p = p := by
  intro a
  induction a with
  | nil =>
    intro p hlen
    cases p with
    | nil => rfl
    | cons y ys => simp at hlen
  | cons x xs ih =>
    intro p hlen
    cases p with
    | nil => simp at hlen
    | cons y ys =>
      show ((x ||| y) &&& y) :: andBytes (orBytes xs ys) ys = y :: ys
      rw [nat_or_and_self, ih ys (by simpa using hlen)]

theorem bloomPart_length (p m : Nat) (src : List Nat) :
    (bloomPart p m src).length = m := by
  induction p with
  | zero => simp [bloomPart]
  | succ q ih =>
    unfold bloomPart at ih ⊢
    rw [List.range_succ, List.foldl_append, List.foldl_cons, List.foldl_nil]
    unfold bloomStep
    rw [List.length_set]
    exact ih

/-- Claim C2: inserting a value with `shiftBloom` and then testing the
same value with `containsBloom` always returns true: the bloom filter
has no false negatives. -/
theorem claim_C2_bloomInsertQuery (p mExp : Nat) (self other : List Nat)
    (hm : self.length = 2 ^ mExp)
    (hfit : p * bloomBytes self.length ≤ other.length) :
    containsBloom p (shiftBloom p self other) other = true := by
  have hplen : (bloomPart p self.length other).length = self.length :=
    bloomPart_length p self.length other
  have hshift_len : (shiftBloom p self other).length = self.length := by
    unfold shiftBloom orBytes
    rw [List.length_zipWith, hplen]
    exact Nat.min_self _
  unfold containsBloom
  rw [hshift_len]
  unfold fhContains shiftBloom
  rw [andBytes_orBytes_self self (bloomPart p self.length other) hplen.symm]
  exact beq_self_eq_true _

/-- Witness for C2 with a 32-byte filter, three picks and a 32-byte
item. -/
theorem claim_C2_witness :
    (List.replicate 32 0 : List Nat).length = 2 ^ 5 ∧
      3 * bloomBytes (List.replicate 32 0 : List Nat).length ≤ (List.range 32).length ∧
      containsBloom 3 (shiftBloom 3 (List.replicate 32 0) (List.range 32))
        (List.range 32) = true :=
  ⟨by decide, by simp [bloomBytes_32],
    claim_C2_bloomInsertQuery 3 5 (List.replicate 32 0) (List.range 32) (by decide)
      (by simp [bloomBytes_32])⟩

theorem foldl_or_beVal : ∀ {l : List Nat} (a : Nat), validBytes l →
    l.foldl (fun idx b => (idx <<< 8) ||| b) a = a * 2 ^ (8 * l.length) + beVal l := by
  intro l
  induction l with
  | nil => intro a _; simp [beVal]
  | cons b r ih =>
    intro a hv
    obtain ⟨hb, hr⟩ := validBytes_cons hv
    rw [List.foldl_cons, show (a <<< 8) ||| b = a * 2 ^ 8 + b by
        rw [Nat.shiftLeft_eq]
        exact lor_two_pow_add (by simpa using hb),
      ih _ hr]
    simp only [beVal, List.length_cons, two_pow_mul_succ,
      show (2 : Nat) ^ 8 = 256 from rfl]
    ring

theorem foldl_range_getD (f : Nat → Nat → Nat) (src : List Nat) :
    ∀ (bpp o a : Nat), o + bpp ≤ src.length →
      (List.range bpp).foldl (fun idx j => f idx (src.getD (o + j) 0)) a =
        ((src.drop o).take bpp).foldl f a := by
  intro bpp
  induction bpp with
  | zero => intro o a _; simp
  | succ q ih =>
    intro o a hle
    have ho : o < src.length := by omega
    have hgetElem : src.getD o 0 = src[o] := by
      rw [List.getD_eq_getElem?_getD, List.getElem?_eq_getElem ho]
      rfl
    rw [List.range_succ_eq_map, List.foldl_cons, List.foldl_map, Nat.add_zero]
    have harg : ∀ x j : Nat,
        f x (src.getD (o + Nat.succ j) 0) = f x (src.getD (o + 1 + j) 0) := by
      intro x j
      rw [show o + Nat.succ j = o + 1 + j by omega]
    simp only [harg]
    rw [ih (o + 1) _ (by omega), List.drop_eq_getElem_cons ho, List.take_succ_cons,
      List.foldl_cons, hgetElem]

theorem pickRaw_eq_beVal {bpp : Nat} {src : List Nat} {i : Nat} (hv : validBytes src)
    (hle : i * bpp + bpp ≤ src.length) :
    pickRaw bpp src i = beVal ((src.drop (i * bpp)).take bpp) := by
  unfold pickRaw
  rw [foldl_range_getD (fun idx b => (idx <<< 8) ||| b) src bpp (i * bpp) 0 hle,
    foldl_or_beVal 0
      (fun x hx => hv x (List.mem_of_mem_drop (List.mem_of_mem_take hx)))]
  simp

theorem pickMasked_eq_bloomPick {m e : Nat} (hm : m = 2 ^ e) {src : List Nat}
    {i : Nat} (hv : validBytes src)
    (hle : i * bloomBytes m + bloomBytes m ≤ src.length) :
    pickRaw (bloomBytes m) src i &&& (m * 8 - 1) = bloomPick m src i := by
  unfold bloomPick
  rw [pickRaw_eq_beVal hv hle]
  have h8 : m * 8 = 2 ^ (e + 3) := by
    rw [hm, pow_add]
    norm_num
  rw [h8, Nat.and_pow_two_sub_one_eq_mod]

theorem bloomPart_succ (q m : Nat) (src : List Nat) :
    bloomPart (q + 1) m src =
      bloomStep m (m * 8 - 1) (bloomBytes m) src (bloomPart q m src) q := by
  unfold bloomPart
  rw [List.range_succ, List.foldl_append, List.foldl_cons, List.foldl_nil]

theorem bloomPart_testBit {m e : Nat} (hm : m = 2 ^ e) {src : List Nat}
    (hv : validBytes src) :
    ∀ {p : Nat}, p * bloomBytes m ≤ src.length → ∀ {k : Nat}, k < m → ∀ {b : Nat},
      (((bloomPart p m src).getD k 0).testBit b = true ↔
        ∃ i, i < p ∧ b < 8 ∧ m - 1 - bloomPick m src i / 8 = k ∧
          bloomPick m src i % 8 = b) := by
  intro p
  induction p with
  | zero =>
    intro _ k hk b
    unfold bloomPart
    rw [List.range_zero, List.foldl_nil, getD_replicate]
    simp [Nat.zero_testBit]
  | succ q ih =>
    intro hfit k hk b
    have hstepfit : q * bloomBytes m + bloomBytes m ≤ src.length := by
      have hq : q * bloomBytes m + bloomBytes m = (q + 1) * bloomBytes m := by ring
      omega
    have hfit' : q * bloomBytes m ≤ src.length := by omega
    have hm1 : 1 ≤ m := by
      rw [hm]
      exact Nat.one_le_two_pow
    have hmask : pickRaw (bloomBytes m) src q &&& (m * 8 - 1) = bloomPick m src q :=
      pickMasked_eq_bloomPick hm hv hstepfit
    have hpick_lt : bloomPick m src q < m * 8 := by
      unfold bloomPick
      exact Nat.mod_lt _ (by omega)
    have hpos_lt : m - 1 - bloomPick m src q / 8 < m := by omega
    rw [bloomPart_succ]
    unfold bloomStep
    rw [hmask]
    by_cases hkpos : k = m - 1 - bloomPick m src q / 8
    · rw [hkpos, getD_set_self (by rw [bloomPart_length]; exact hpos_lt),
        Nat.testBit_or, Nat.one_shiftLeft, Nat.testBit_two_pow, Bool.or_eq_true,
        decide_eq_true_eq, ih hfit' hpos_lt]
      constructor
      · rintro (⟨i, hi, hb8, hki, hbi⟩ | hbq)
        · exact ⟨i, by omega, hb8, hki, hbi⟩
        · exact ⟨q, by omega, by omega, rfl, hbq⟩
      · rintro ⟨i, hi, hb8, hki, hbi⟩
        by_cases hiq : i = q
        · subst hiq
          exact Or.inr hbi
        · exact Or.inl ⟨i, by omega, hb8, hki, hbi⟩
    · rw [getD_set_ne _ (fun h => hkpos h.symm), ih hfit' hk]
      constructor
      · rintro ⟨i, hi, hb8, hki, hbi⟩
        exact ⟨i, by omega, hb8, hki, hbi⟩
      · rintro ⟨i, hi, hb8, hki, hbi⟩
        by_cases hiq : i = q
        · subst hiq
          exact absurd hki.symm hkpos
        · exact ⟨i, by omega, hb8, hki, hbi⟩

/-- Claim C1: `bloomPart<P, M>` produces the `M`-byte value whose set
bits are exactly those selected by the `P` picks, where pick `i` is the
big-endian value of the next `bytesPerPick` source bytes reduced into
`[0, M * 8)`, setting bit `index % 8` of byte `M - 1 - index / 8`. -/
theorem claim_C1_bloomPart {m e p n : Nat} {src : List Nat} (hm : m = 2 ^ e)
    (hlen : src.length = n) (hfit : p * bloomBytes m ≤ n) (hv : validBytes src) :
    (bloomPart p m src).length = m ∧
      (∀ i, i < p → bloomPick m src i < m * 8) ∧
      (∀ k, k < m → ∀ b : Nat,
        (((bloomPart p m src).getD k 0).testBit b = true ↔
          ∃ i, i < p ∧ b < 8 ∧ m - 1 - bloomPick m src i / 8 = k ∧
            bloomPick m src i % 8 = b)) := by
  have hm0 : 0 < m * 8 := by
    rw [hm]
    positivity
  refine ⟨bloomPart_length p m src, ?_, ?_⟩
  · intro i _
    unfold bloomPick
    exact Nat.mod_lt _ hm0
  · intro k hk b
    exact bloomPart_testBit hm hv (by omega) hk

/-- Witness for C1 with three picks into a 32-byte bloom from the
32-byte source `0, 1, ..., 31`. -/
theorem claim_C1_witness :
    (32 : Nat) = 2 ^ 5 ∧ (List.range 32).length = 32 ∧ 3 * bloomBytes 32 ≤ 32 ∧
      ((bloomPart 3 32 (List.range 32)).length = 32 ∧
        (∀ i, i < 3 → bloomPick 32 (List.range 32) i < 32 * 8) ∧
        (∀ k, k < 32 → ∀ b : Nat,
          (((bloomPart 3 32 (List.range 32)).getD k 0).testBit b = true ↔
            ∃ i, i < 3 ∧ b < 8 ∧
              32 - 1 - bloomPick 32 (List.range 32) i / 8 = k ∧
              bloomPick 32 (List.range 32) i % 8 = b))) :=
  ⟨by norm_num, by simp, by simp [bloomBytes_32],
    @claim_C1_bloomPart 32 5 3 32 (List.range 32) (by norm_num) (by simp)
      (by simp [bloomBytes_32]) (by decide)⟩

/-- Claim C10: the bloom fragment has at most `P` set bits, and at least
one set bit whenever `P ≥ 1`, so it is never the all-zero value. -/
theorem claim_C10_bloomPartBits {m e p n : Nat} {src : List Nat} (hm : m = 2 ^ e)
    (hlen : src.length = n) (hfit : p * bloomBytes m ≤ n) (hv : validBytes src) :
    setBitCount (bloomPart p m src) ≤ p ∧
      (1 ≤ p → ∃ k, k < m ∧ (bloomPart p m src).getD k 0 ≠ 0) := by
  have hm1 : 1 ≤ m := by
    rw [hm]
    exact Nat.one_le_two_pow
  have hm0 : 0 < m * 8 := by omega
  constructor
  · unfold setBitCount
    rw [bloomPart_length]
    have hsub : (Finset.range (8 * m)).filter
          (fun j => ((bloomPart p m src).getD (j / 8) 0).testBit (j % 8)) ⊆
        (Finset.range p).image
          (fun i => 8 * (m - 1 - bloomPick m src i / 8) + bloomPick m src i % 8) := by
      intro j hj
      rw [Finset.mem_filter, Finset.mem_range] at hj
      obtain ⟨hjlt, hjbit⟩ := hj
      have hk : j / 8 < m := by omega
      obtain ⟨i, hip, hb8, hki, hbi⟩ :=
        (bloomPart_testBit hm hv (by omega) hk).mp hjbit
      rw [Finset.mem_image]
      exact ⟨i, Finset.mem_range.mpr hip, by omega⟩
    calc ((Finset.range (8 * m)).filter _).card
        ≤ ((Finset.range p).image _).card := Finset.card_le_card hsub
      _ ≤ (Finset.range p).card := Finset.card_image_le
      _ = p := Finset.card_range p
  · intro hp
    have hpick_lt : bloomPick m src 0 < m * 8 := by
      unfold bloomPick
      exact Nat.mod_lt _ hm0
    have hk0 : m - 1 - bloomPick m src 0 / 8 < m := by omega
    refine ⟨m - 1 - bloomPick m src 0 / 8, hk0, ?_⟩
    intro h0
    have hbit := (bloomPart_testBit hm hv (by omega) hk0).mpr
      ⟨0, hp, by omega, rfl, rfl⟩
    rw [h0] at hbit
    simp [Nat.zero_testBit] at hbit

/-- Witness for C10 with three picks into a 32-byte bloom. -/
theorem claim_C10_witness :
    (32 : Nat) = 2 ^ 5 ∧ (List.range 32).length = 32 ∧ 3 * bloomBytes 32 ≤ 32 ∧
      (setBitCount (bloomPart 3 32 (List.range 32)) ≤ 3 ∧
        (1 ≤ 3 → ∃ k, k < 32 ∧ (bloomPart 3 32 (List.range 32)).getD k 0 ≠ 0)) :=
  ⟨by norm_num, by simp, by simp [bloomBytes_32],
    @claim_C10_bloomPartBits 32 5 3 32 (List.range 32) (by norm_num) (by simp)
      (by simp [bloomBytes_32]) (by decide)⟩

end FixedHash
